import Mathlib

/-!
Verification of the MTAttention repository (src/models/Transformer.py).

Shallow embedding conventions:
* A 3-D tensor of shape `(batch B, length L, feature F)` is a function
  `Fin B → Fin L → Fin F → ℝ` (`T3 B L F`); for structural facts that do not
  depend on the scalar field the definitions are polymorphic in the element
  type.
* `nn.Linear(inF, outF)` is an explicit affine map on the last axis.
* Framework-internal components with no code in this repository
  (`nn.MultiheadAttention`) are opaque function fields of the layer
  structures; everything written in `Transformer.py` is embedded explicitly.
* `nn.Dropout` is modelled with an explicit training flag and an explicit
  mask tensor: in training mode it multiplies elementwise by the mask, in
  evaluation mode it is the identity (PyTorch semantics with the random
  mask made explicit).
-/

namespace MTAttention

/-- A 3-D real tensor of shape (batch, length, feature), as in the model's
`(batch, time_steps, input_size)` inputs. -/
abbrev T3 (B L F : ℕ) := Fin B → Fin L → Fin F → ℝ

/-- The call `torch.roll(x, shifts=(0, 0, 1), dims=(0, 1, 2))` from `Model.forward`
(line 147): dims 0 and 1 are shifted by 0, dim 2 (the last, feature axis)
is cyclically shifted by one step towards higher indices, so
`result[b][l][f] = x[b][l][(f-1) mod F]`.  Polymorphic in the element type. -/
def rollShifts001 {α : Type} {B L F : ℕ} [NeZero F] (x : Fin B → Fin L → Fin F → α) :
    Fin B → Fin L → Fin F → α :=
  fun b l f => x b l (f - 1)

/-- The shift described by the spec's words ("cyclically shifted by one step
along the length axis"): dim 1 (length) rolled by one, features untouched.
Written from the spec, for comparison with `rollShifts001` (the code). -/
def specLengthRoll {α : Type} {B L F : ℕ} [NeZero L] (x : Fin B → Fin L → Fin F → α) :
    Fin B → Fin L → Fin F → α :=
  fun b l f => x b (l - 1) f

/-- A concrete 1×2×2 input batch whose entries are all distinct:
`x[0][l][f] = 2*l + f`, i.e. the values 0, 1, 2, 3. -/
def exTensor : Fin 1 → Fin 2 → Fin 2 → ℕ :=
  fun _ l f => 2 * l.val + f.val

lemma rollShifts001_iterate {α : Type} {B L F : ℕ}
    (n : ℕ) (x : Fin B → Fin L → Fin (F + 1) → α) :
    rollShifts001^[n] x = fun b l f => x b l (f - (n : Fin (F + 1))) := by
  induction n generalizing x with
  | zero => funext b l f; simp
  | succ k ih =>
      rw [Function.iterate_succ_apply, ih]
      funext b l f
      simp only [rollShifts001]
      congr 1
      push_cast
      ring

/-- C1 counterexample: on the concrete 1×2×2 batch `exTensor`
(values `x[0][l][f] = 2*l + f`), the decoder input actually computed by
`Model.forward` (`rollShifts001`, the code's
`torch.roll(·, shifts=(0,0,1), dims=(0,1,2))`) puts `x[0][0][1] = 1` at
position (0,0,0), whereas the claimed length-axis rotation
(`specLengthRoll`, element at length position L-1 moving to length
position 0) would put `x[0][1][0] = 2` there: the decoder input is not the
encoder input shifted along the length axis. -/
theorem c1_counterexample :
    rollShifts001 exTensor 0 0 0 = 1 ∧ specLengthRoll exTensor 0 0 0 = 2 ∧
      rollShifts001 exTensor 0 0 0 ≠ specLengthRoll exTensor 0 0 0 := by
  refine ⟨by decide, by decide, by decide⟩

/-- C1 (amended): in `Model.forward`, the decoder input is the encoder
input cyclically shifted by one step along the *feature* (last, size
`input_size`) axis, not the length axis: the element at feature position
F-1 moves to feature position 0, every other feature position shifts by
one, and applying the shift F times (F = feature count) returns the
original tensor. -/
theorem c1_roll_feature_axis {α : Type} {B L F : ℕ}
    (x : Fin B → Fin L → Fin (F + 1) → α) (b : Fin B) (l : Fin L) :
    rollShifts001 x b l 0 = x b l (Fin.last F) ∧
      (∀ f : Fin (F + 1), rollShifts001 x b l f = x b l (f - 1)) ∧
      rollShifts001^[F + 1] x = x := by
  refine ⟨?_, fun f => rfl, ?_⟩
  · show x b l (0 - 1) = x b l (Fin.last F)
    congr 1
    cases F with
    | zero => decide
    | succ m =>
        apply Fin.ext
        rw [zero_sub, Fin.neg_def]
        simp [Fin.last, Fin.val_one]
  · rw [rollShifts001_iterate]
    funext b' l' f
    rw [Fin.natCast_self, sub_zero]

/-! ### Layers (src/models/Transformer.py, lines 15-139) -/

/-- Embeds `nn.Linear(inF, outF)`: an affine map `v ↦ W v + b` on the last axis. -/
structure Linear (inF outF : ℕ) where
  weight : Fin outF → Fin inF → ℝ
  bias : Fin outF → ℝ

/-- Apply a `Linear` to a single feature vector. -/
noncomputable def Linear.app {inF outF : ℕ} (lin : Linear inF outF)
    (v : Fin inF → ℝ) : Fin outF → ℝ :=
  fun o => (∑ i, lin.weight o i * v i) + lin.bias o

/-- Apply a `Linear` to the last axis of a 3-D tensor, as PyTorch does for a
`(batch, length, feature)` input. -/
noncomputable def Linear.app3 {B L inF outF : ℕ} (lin : Linear inF outF)
    (x : T3 B L inF) : T3 B L outF :=
  fun b l => lin.app (x b l)

/-- Embeds `nn.Dropout` with the stochastic mask made explicit: in training mode the
input is multiplied elementwise by the mask, in evaluation mode
(`training = false`, the mode relevant to the claims) it is the identity. -/
def dropout3 {B L F : ℕ} (training : Bool) (mask : T3 B L F) (x : T3 B L F) :
    T3 B L F :=
  if training then fun b l f => x b l f * mask b l f else x

/-- Embeds `PositionwiseFeedForward.__init__`: two linear maps `w_1`, `w_2`
(lines 17-21). -/
structure PositionwiseFeedForward (D Dff : ℕ) where
  w_1 : Linear D Dff
  w_2 : Linear Dff D

/-- Embeds `PositionwiseFeedForward.forward`: `w_2(dropout(relu(w_1(x))))`
(line 24); `relu t = max t 0`. -/
noncomputable def PositionwiseFeedForward.forward {B L D Dff : ℕ}
    (ffn : PositionwiseFeedForward D Dff) (training : Bool)
    (mask : T3 B L Dff) (x : T3 B L D) : T3 B L D :=
  ffn.w_2.app3 (dropout3 training mask (fun b l f => max (ffn.w_1.app3 x b l f) 0))

/-- Embeds `EncoderLayer`: an opaque framework `nn.MultiheadAttention`
(`self_attn`, applied with query = key = value) and a feed-forward block
(lines 27-38). -/
structure EncoderLayer (B L D Dff : ℕ) where
  self_attn : T3 B L D → T3 B L D
  pos_fnn : PositionwiseFeedForward D Dff

/-- Embeds `EncoderLayer.forward` (lines 33-38). -/
noncomputable def EncoderLayer.forward {B L D Dff : ℕ}
    (layer : EncoderLayer B L D Dff) (training : Bool) (mask : T3 B L Dff)
    (enc_input : T3 B L D) : T3 B L D :=
  layer.pos_fnn.forward training mask (layer.self_attn enc_input)

/-- Embeds `DecoderLayer`: opaque self-attention and cross-attention (the latter
taking query and memory), plus a feed-forward block (lines 41-54). -/
structure DecoderLayer (B L D Dff : ℕ) where
  slf_attn : T3 B L D → T3 B L D
  multihead_attn : T3 B L D → T3 B L D → T3 B L D
  pos_fnn : PositionwiseFeedForward D Dff

/-- Embeds `DecoderLayer.forward` (lines 48-54): self-attention on the decoder
input, cross-attention of the result against the encoder output, then the
feed-forward block. -/
noncomputable def DecoderLayer.forward {B L D Dff : ℕ}
    (layer : DecoderLayer B L D Dff) (training : Bool) (mask : T3 B L Dff)
    (dec_input enc_output : T3 B L D) : T3 B L D :=
  layer.pos_fnn.forward training mask
    (layer.multihead_attn (layer.slf_attn dec_input) enc_output)

/-- Embeds `Encoder.__init__` (lines 57-62): the ModuleList
`[encoder_layer for _ in range(num_layers)]` holds the *same* layer object
`num_layers` times; in the embedding, the same parameter values repeated. -/
def Encoder.mkStacks {B L D Dff : ℕ} (encoder_layer : EncoderLayer B L D Dff)
    (num_layers : ℕ) : List (EncoderLayer B L D Dff) :=
  List.replicate num_layers encoder_layer

/-- Embeds `Encoder.forward` (lines 64-70): fold the input through the layer
stack; each layer call consumes the next dropout mask of the stream. -/
noncomputable def Encoder.forward {B L D Dff : ℕ}
    (layer_stacks : List (EncoderLayer B L D Dff)) (training : Bool)
    (masks : ℕ → T3 B L Dff) (input : T3 B L D) : T3 B L D :=
  match layer_stacks with
  | [] => input
  | layer :: rest =>
      Encoder.forward rest training (fun n => masks (n + 1))
        (layer.forward training (masks 0) input)

/-- Embeds `Decoder.__init__` (lines 73-79): same single layer instance repeated. -/
def Decoder.mkStacks {B L D Dff : ℕ} (decoder_layer : DecoderLayer B L D Dff)
    (num_layers : ℕ) : List (DecoderLayer B L D Dff) :=
  List.replicate num_layers decoder_layer

/-- Embeds `Decoder.forward` (lines 81-88): fold the target through the layer
stack, passing the same encoder memory to every layer. -/
noncomputable def Decoder.forward {B L D Dff : ℕ}
    (layer_stacks : List (DecoderLayer B L D Dff)) (training : Bool)
    (masks : ℕ → T3 B L Dff) (target memory : T3 B L D) : T3 B L D :=
  match layer_stacks with
  | [] => target
  | layer :: rest =>
      Decoder.forward rest training (fun n => masks (n + 1))
        (layer.forward training (masks 0) target memory) memory

/-! ### Positional encoding (lines 91-110) -/

/-- Embeds `div_term[i] = exp(2i * -(log 10000 / d_model))` (lines 100-101), as a
function of the even channel value `c = 2i`. -/
noncomputable def div_term (d_model c : ℕ) : ℝ :=
  Real.exp (c * -(Real.log 10000 / d_model))

/-- The precomputed table `pe` (lines 98-105):
`pe[p][2i] = sin(p * div_term[i])`, `pe[p][2i+1] = cos(p * div_term[i])`. -/
noncomputable def peTable (d_model : ℕ) (p c : ℕ) : ℝ :=
  if c % 2 = 0 then Real.sin (p * div_term d_model c)
  else Real.cos (p * div_term d_model (c - 1))

/-- Embeds `PositionalEncoding.forward` (lines 107-110): add the first `L` rows of
the table to the input (row index = position along the length axis), then
apply dropout. -/
noncomputable def PositionalEncoding.forward {B L D : ℕ} (d_model : ℕ)
    (training : Bool) (mask : T3 B L D) (x : T3 B L D) : T3 B L D :=
  dropout3 training mask (fun b l c => x b l c + peTable d_model l.val c.val)

/-! ### AR branch and full model (lines 113-164) -/

/-- Embeds `AR` (lines 113-120): a single `nn.Linear(window, horizon)` applied to
the raw input. -/
noncomputable def AR.forward {B L window horizon : ℕ}
    (linear : Linear window horizon) (x : T3 B L window) : T3 B L horizon :=
  linear.app3 x

/-- Embeds `Model.__init__` (lines 123-139): the embeddings, AR branch, output
projection, one encoder layer repeated `num_enc_layers` times and one
decoder layer repeated `num_dec_layers` times.  `I` = `input_size`,
`O` = `output_size`, `D` = `d_model`, `Dff` = `d_forward`. -/
structure Model (B L I O D Dff : ℕ) where
  enc_input_embed : Linear I D
  dec_input_embed : Linear I D
  ar : Linear I O
  linear_out : Linear D O
  encoder : List (EncoderLayer B L D Dff)
  decoder : List (DecoderLayer B L D Dff)

/-- The dropout masks drawn during one call of `Model.forward`: one for
each of the two `position_encoding` calls and one stream for the
feed-forward dropout inside the encoder and decoder layer_stacks. -/
structure DropMasks (B L D Dff : ℕ) where
  peEnc : T3 B L D
  peDec : T3 B L D
  encFfn : ℕ → T3 B L Dff
  decFfn : ℕ → T3 B L Dff

/-- Embeds `Model.forward` (lines 141-164), with the training flag and dropout
masks explicit.  `D` plays the role of `d_model`. -/
noncomputable def Model.forward {B L I O D Dff : ℕ} [NeZero I]
    (m : Model B L I O D Dff) (training : Bool) (masks : DropMasks B L D Dff)
    (src : T3 B L I) : T3 B L O :=
  let enc_input := src
  let dec_input := src
  let dec_input := rollShifts001 dec_input
  let enc_input := m.enc_input_embed.app3 enc_input
  let dec_input := m.dec_input_embed.app3 dec_input
  let enc_input := PositionalEncoding.forward D training masks.peEnc enc_input
  let dec_input := PositionalEncoding.forward D training masks.peDec dec_input
  let enc_output := Encoder.forward m.encoder training masks.encFfn enc_input
  let dec_output := Decoder.forward m.decoder training masks.decFfn dec_input enc_output
  let output := dec_output
  let decoder_output := m.linear_out.app3 output
  let ar_output := AR.forward m.ar src
  fun b l o => decoder_output b l o + ar_output b l o

/-! ### Dropout-mask irrelevance in evaluation mode -/

lemma dropout3_false {B L F : ℕ} (mask x : T3 B L F) :
    dropout3 false mask x = x := rfl

lemma peForward_false {B L D : ℕ} (d_model : ℕ)
    (mask mask' : T3 B L D) (x : T3 B L D) :
    PositionalEncoding.forward d_model false mask x =
      PositionalEncoding.forward d_model false mask' x := rfl

lemma encLayerForward_false {B L D Dff : ℕ}
    (layer : EncoderLayer B L D Dff) (mask mask' : T3 B L Dff)
    (x : T3 B L D) : layer.forward false mask x = layer.forward false mask' x := rfl

lemma decLayerForward_false {B L D Dff : ℕ}
    (layer : DecoderLayer B L D Dff) (mask mask' : T3 B L Dff)
    (x memory : T3 B L D) :
    layer.forward false mask x memory = layer.forward false mask' x memory := rfl

lemma encForward_false_masks {B L D Dff : ℕ}
    (layer_stacks : List (EncoderLayer B L D Dff))
    (masks masks' : ℕ → T3 B L Dff) (x : T3 B L D) :
    Encoder.forward layer_stacks false masks x =
      Encoder.forward layer_stacks false masks' x := by
  induction layer_stacks generalizing masks masks' x with
  | nil => rfl
  | cons layer rest ih =>
      simp only [Encoder.forward]
      rw [encLayerForward_false layer (masks 0) (masks' 0)]
      exact ih _ _ _

lemma decForward_false_masks {B L D Dff : ℕ}
    (layer_stacks : List (DecoderLayer B L D Dff))
    (masks masks' : ℕ → T3 B L Dff) (x memory : T3 B L D) :
    Decoder.forward layer_stacks false masks x memory =
      Decoder.forward layer_stacks false masks' x memory := by
  induction layer_stacks generalizing masks masks' x with
  | nil => rfl
  | cons layer rest ih =>
      simp only [Decoder.forward]
      rw [decLayerForward_false layer (masks 0) (masks' 0)]
      exact ih _ _ _

/-! ### Claims C4, C5, C6, C9 -/

/-- C4: every table entry satisfies
`table[p][2i] = sin(p / 10000^(2i/d_model))` and
`table[p][2i+1] = cos(p / 10000^(2i/d_model))` — the code's log-space
`exp(2i * -(log 10000)/d_model)` yields the same argument — and in
evaluation mode `PositionalEncoding.forward` adds table row `l` to the
input at every position `l < L`, preserving the shape (the result is again
a `T3 B L d_model` tensor). -/
theorem c4_positional_encoding (d_model max_len : ℕ) (hd : 0 < d_model)
    (p i : ℕ) (hp : p < max_len) (h2i : 2 * i < d_model) :
    peTable d_model p (2 * i) =
        Real.sin ((p : ℝ) / (10000 : ℝ) ^ (2 * (i : ℝ) / (d_model : ℝ))) ∧
      peTable d_model p (2 * i + 1) =
        Real.cos ((p : ℝ) / (10000 : ℝ) ^ (2 * (i : ℝ) / (d_model : ℝ))) ∧
      ∀ (B L : ℕ) (mask x : T3 B L d_model) (b : Fin B) (l : Fin L)
        (c : Fin d_model),
        PositionalEncoding.forward d_model false mask x b l c =
          x b l c + peTable d_model l.val c.val := by
  have harg : ∀ c : ℕ, (p : ℝ) * div_term d_model c =
      (p : ℝ) / (10000 : ℝ) ^ ((c : ℝ) / (d_model : ℝ)) := by
    intro c
    rw [div_term, Real.rpow_def_of_pos (by norm_num : (0 : ℝ) < 10000),
      eq_div_iff (Real.exp_ne_zero _), mul_assoc, ← Real.exp_add]
    have hAB : (c : ℝ) * -(Real.log 10000 / (d_model : ℝ)) +
        Real.log 10000 * ((c : ℝ) / (d_model : ℝ)) = 0 := by ring
    rw [hAB, Real.exp_zero, mul_one]
  refine ⟨?_, ?_, fun B L mask x b l c => rfl⟩
  · rw [peTable, if_pos (by omega : 2 * i % 2 = 0), harg (2 * i)]
    push_cast
    ring_nf
  · rw [peTable, if_neg (by omega : ¬(2 * i + 1) % 2 = 0)]
    have : 2 * i + 1 - 1 = 2 * i := by omega
    rw [this, harg (2 * i)]
    push_cast
    ring_nf

/-- Witness for C4 at `d_model = 2`, `max_len = 1`, `p = 0`, `i = 0`. -/
theorem c4_positional_encoding_witness :
    0 < 2 ∧ (0 : ℕ) < 1 ∧ 2 * 0 < 2 ∧
      (peTable 2 0 (2 * 0) =
          Real.sin ((0 : ℕ) / (10000 : ℝ) ^ (2 * ((0 : ℕ) : ℝ) / ((2 : ℕ) : ℝ))) ∧
        peTable 2 0 (2 * 0 + 1) =
          Real.cos ((0 : ℕ) / (10000 : ℝ) ^ (2 * ((0 : ℕ) : ℝ) / ((2 : ℕ) : ℝ))) ∧
        ∀ (B L : ℕ) (mask x : T3 B L 2) (b : Fin B) (l : Fin L) (c : Fin 2),
          PositionalEncoding.forward 2 false mask x b l c =
            x b l c + peTable 2 l.val c.val) :=
  ⟨by norm_num, by norm_num, by norm_num,
    c4_positional_encoding 2 1 (by norm_num) 0 0 (by norm_num) (by norm_num)⟩

/-- C5: `Model.forward` returns `linear_out(decoder output) + AR(src)`,
where the AR term is the single linear map `m.ar` applied to the original
raw input `src` (not to the shifted `rollShifts001 src` nor to any
embedded tensor), and the returned forecast is exactly the elementwise sum
of the two tensors. -/
theorem c5_forward_decomposition {B L I O D Dff : ℕ} [NeZero I]
    (m : Model B L I O D Dff) (training : Bool) (masks : DropMasks B L D Dff)
    (src : T3 B L I) :
    Model.forward m training masks src = fun b l o =>
      m.linear_out.app3
          (Decoder.forward m.decoder training masks.decFfn
            (PositionalEncoding.forward D training masks.peDec
              (m.dec_input_embed.app3 (rollShifts001 src)))
            (Encoder.forward m.encoder training masks.encFfn
              (PositionalEncoding.forward D training masks.peEnc
                (m.enc_input_embed.app3 src)))) b l o
        + AR.forward m.ar src b l o := rfl

/-- C6: `Encoder.__init__` and `Decoder.__init__` build stacks holding the
same single layer instance `num_layers` times (every stack element equals
that layer), so in evaluation mode the stack's forward pass is the
`num_layers`-fold iterate of the one shared layer function. -/
theorem c6_shared_layer_stacks {B L D Dff : ℕ}
    (enc_layer : EncoderLayer B L D Dff) (dec_layer : DecoderLayer B L D Dff)
    (num_layers : ℕ) (masks masks' : ℕ → T3 B L Dff) (x memory : T3 B L D) :
    (∀ layer ∈ Encoder.mkStacks enc_layer num_layers, layer = enc_layer) ∧
      Encoder.forward (Encoder.mkStacks enc_layer num_layers) false masks x =
        (fun y => enc_layer.forward false (fun _ _ _ => 0) y)^[num_layers] x ∧
      (∀ layer ∈ Decoder.mkStacks dec_layer num_layers, layer = dec_layer) ∧
      Decoder.forward (Decoder.mkStacks dec_layer num_layers) false masks' x
          memory =
        (fun y => dec_layer.forward false (fun _ _ _ => 0) y memory)^[num_layers]
          x := by
  refine ⟨fun layer h => List.eq_of_mem_replicate h, ?_,
    fun layer h => List.eq_of_mem_replicate h, ?_⟩
  · induction num_layers generalizing masks x with
    | zero => rfl
    | succ n ih =>
        rw [Encoder.mkStacks, List.replicate_succ]
        simp only [Encoder.forward]
        rw [Function.iterate_succ_apply, encLayerForward_false enc_layer (masks 0)]
        exact ih _ _
  · induction num_layers generalizing masks' x with
    | zero => rfl
    | succ n ih =>
        rw [Decoder.mkStacks, List.replicate_succ]
        simp only [Decoder.forward]
        rw [Function.iterate_succ_apply, decLayerForward_false dec_layer (masks' 0)]
        exact ih _ _

/-- C9: with dropout disabled (evaluation mode, `training = false`) and
fixed weights, `Model.forward` is deterministic: the output does not
depend on the random dropout masks, so two runs on the same input with the
same parameters agree. -/
theorem c9_eval_deterministic {B L I O D Dff : ℕ} [NeZero I]
    (m : Model B L I O D Dff) (masks1 masks2 : DropMasks B L D Dff)
    (src : T3 B L I) :
    Model.forward m false masks1 src = Model.forward m false masks2 src := by
  simp only [Model.forward]
  rw [peForward_false D masks1.peEnc masks2.peEnc,
    peForward_false D masks1.peDec masks2.peDec,
    encForward_false_masks m.encoder masks1.encFfn masks2.encFfn,
    decForward_false_masks m.decoder masks1.decFfn masks2.decFfn]

/-! ### The evaluation routine `evaluate` (lines 211-247)

The accumulated `predict` and `labels` tensors are reshaped to 1-D
(lines 229-230) before the metrics are computed, so the metric definitions
below work on flat `List ℝ` vectors, exactly as the code does after the
reshape; the per-batch loop is modelled on per-batch flat element lists. -/

/-- Embeds `torch.mean` of a flat tensor. -/
noncomputable def meanList (l : List ℝ) : ℝ := l.sum / l.length

/-- Embeds `nn.MSELoss()` (default `mean` reduction): mean of elementwise squared
differences over all elements. -/
noncomputable def mseList (predict labels : List ℝ) : ℝ :=
  (List.zipWith (fun a b => (a - b) ^ 2) predict labels).sum / predict.length

/-- The accumulation loop of `evaluate` (lines 217-227): each iteration
concatenates the batch onto the running `predict`/`labels` and adds
`criterion(predict, labels)` — the MSE of the *whole running
concatenation* — to `total_loss`. -/
noncomputable def evaluateLossLoop (accP accL : List ℝ) :
    List (List ℝ × List ℝ) → ℝ
  | [] => 0
  | (p, l) :: rest =>
      mseList (accP ++ p) (accL ++ l) +
        evaluateLossLoop (accP ++ p) (accL ++ l) rest

/-- The MSE scalar returned by `evaluate` (line 247):
`total_loss / total_samples` with `total_samples = (number of batches) *
batch_size`. -/
noncomputable def evaluateMse (batch_size : ℕ)
    (batches : List (List ℝ × List ℝ)) : ℝ :=
  evaluateLossLoop [] [] batches / (batches.length * batch_size)

/-- The quantity `sum((labels - mean(labels))^2)`: the squared deviations from the mean
(`y_trans` / `y_d` in the code, lines 234 and 240-241). -/
noncomputable def sumSqDev (l : List ℝ) : ℝ :=
  (l.map (fun y => (y - meanList l) ^ 2)).sum

/-- Embeds `rrse` (lines 232-236):
`sqrt(sum((predict-labels)^2)) / sqrt(sum((labels-mean(labels))^2))`. -/
noncomputable def rrse (predict labels : List ℝ) : ℝ :=
  Real.sqrt ((List.zipWith (fun a b => (a - b) ^ 2) predict labels).sum) /
    Real.sqrt (sumSqDev labels)

/-- Embeds `corr_denom` (line 243):
`sqrt(sum(y_d^2) * sum(y_d_hat^2))` for the centered labels `y_d` and
centered predictions `y_d_hat`.  Since the tensors were reshaped to 1-D,
the `dim 0` sums are over *all* elements and produce a single scalar. -/
noncomputable def corrDenom (predict labels : List ℝ) : ℝ :=
  Real.sqrt
    (((labels.map (fun y => y - meanList labels)).map (fun y => y ^ 2)).sum *
      ((predict.map (fun y => y - meanList predict)).map (fun y => y ^ 2)).sum)

/-- Embeds `corr` (lines 238-245): `sum(y_d * y_d_hat, 0) / corr_denom`, summed
over dim 0 of the flat 1-D tensors — a single Pearson coefficient. -/
noncomputable def corr (predict labels : List ℝ) : ℝ :=
  (List.zipWith (fun a b => a * b)
      (labels.map (fun y => y - meanList labels))
      (predict.map (fun y => y - meanList predict))).sum /
    corrDenom predict labels

/-! ### Helper lemmas about sums of squared deviations -/

lemma list_sum_eq_zero_of_nonneg {l : List ℝ} (hl : ∀ x ∈ l, 0 ≤ x)
    (h : l.sum = 0) : ∀ x ∈ l, x = 0 := by
  induction l with
  | nil => simp
  | cons a t ih =>
      simp only [List.sum_cons] at h
      have ha : 0 ≤ a := hl a (by simp)
      have ht : 0 ≤ t.sum := List.sum_nonneg fun x hx => hl x (by simp [hx])
      intro x hx
      rcases List.mem_cons.1 hx with h1 | h2
      · rw [h1]; linarith
      · exact ih (fun y hy => hl y (by simp [hy])) (by linarith) x h2

lemma list_sum_const {l : List ℝ} {c : ℝ} (h : ∀ x ∈ l, x = c) :
    l.sum = l.length * c := by
  induction l with
  | nil => simp
  | cons a t ih =>
      simp only [List.sum_cons, List.length_cons]
      rw [h a (by simp), ih fun y hy => h y (by simp [hy])]
      push_cast
      ring

lemma meanList_const {l : List ℝ} {c : ℝ} (hne : l ≠ []) (h : ∀ x ∈ l, x = c) :
    meanList l = c := by
  have hlen : (l.length : ℝ) ≠ 0 := by
    exact_mod_cast (List.length_pos.2 hne).ne'
  rw [meanList, list_sum_const h, mul_comm, mul_div_assoc, div_self hlen,
    mul_one]

lemma sumSqDev_nonneg (l : List ℝ) : 0 ≤ sumSqDev l :=
  List.sum_nonneg fun x hx => by
    obtain ⟨y, _, rfl⟩ := List.mem_map.1 hx
    positivity

/-- The denominator characterization: the sum of squared deviations from
the mean vanishes exactly when all elements of the list are equal. -/
lemma sumSqDev_eq_zero_iff (l : List ℝ) :
    sumSqDev l = 0 ↔ ∀ a ∈ l, ∀ b ∈ l, a = b := by
  constructor
  · intro h a ha b hb
    have hz := list_sum_eq_zero_of_nonneg (l := l.map fun y => (y - meanList l) ^ 2)
      (fun x hx => by
        obtain ⟨y, _, rfl⟩ := List.mem_map.1 hx
        positivity) h
    have key : ∀ y ∈ l, y = meanList l := by
      intro y hy
      have := hz _ (List.mem_map.2 ⟨y, hy, rfl⟩)
      have : (y - meanList l) = 0 := by
        exact pow_eq_zero_iff (n := 2) (by norm_num) |>.1 this
      linarith
    rw [key a ha, key b hb]
  · intro h
    cases l with
    | nil => simp [sumSqDev]
    | cons a t =>
        have hc : ∀ x ∈ a :: t, x = a := fun x hx => h x hx a (by simp)
        have hm : meanList (a :: t) = a := meanList_const (by simp) hc
        rw [sumSqDev]
        apply List.sum_eq_zero
        intro x hx
        obtain ⟨y, hy, rfl⟩ := List.mem_map.1 hx
        rw [hc y hy, hm]
        ring

lemma sumSqDev_ne_zero {l : List ℝ} (h : ∃ a ∈ l, ∃ b ∈ l, a ≠ b) :
    sumSqDev l ≠ 0 := by
  obtain ⟨a, ha, b, hb, hab⟩ := h
  intro hz
  exact hab ((sumSqDev_eq_zero_iff l).1 hz a ha b hb)

lemma zipWith_self_map {α β : Type} (f : α → α → β) (l : List α) :
    List.zipWith f l l = l.map fun a => f a a := by
  induction l with
  | nil => rfl
  | cons a t ih => simp [ih]

lemma zipWith_const_left (m : ℝ) (f : ℝ → ℝ → ℝ) (l : List ℝ) :
    List.zipWith f (l.map fun _ => m) l = l.map fun y => f m y := by
  induction l with
  | nil => rfl
  | cons a t ih => simp only [List.map_cons, List.zipWith_cons_cons, ih]

/-- The squared centered labels summed, as written in `corr`
(map twice), equal `sumSqDev`. -/
lemma map_sq_center_sum (l : List ℝ) :
    ((l.map (fun y => y - meanList l)).map (fun y => y ^ 2)).sum = sumSqDev l := by
  rw [List.map_map, sumSqDev]
  rfl

/-- Shared helper: `corr` of a list against itself is `1` whenever the
deviations do not all vanish. -/
lemma corr_self_eq_one {l : List ℝ} (h : sumSqDev l ≠ 0) : corr l l = 1 := by
  rw [corr, corrDenom, map_sq_center_sum, Real.sqrt_mul_self (sumSqDev_nonneg l),
    zipWith_self_map]
  have : (List.map (fun a => a * a) (l.map fun y => y - meanList l)).sum
      = sumSqDev l := by
    rw [List.map_map, sumSqDev]
    apply congrArg
    apply List.map_congr_left
    intro x _
    simp [pow_two]
  rw [this, div_self h]

/-! ### Claims C7, C2, C10 -/

/-- C7: the RRSE returned by `evaluate` is
`sqrt(sum((predict-labels)^2)) / sqrt(sum((labels-mean(labels))^2))` on the
flattened accumulated tensors; for nonconstant labels, a prediction equal
to the label mean everywhere gives RRSE exactly 1, and a prediction equal
to the labels elementwise gives RRSE exactly 0. -/
theorem c7_rrse (labels : List ℝ)
    (h : ∃ a ∈ labels, ∃ b ∈ labels, a ≠ b) :
    (∀ predict, rrse predict labels =
        Real.sqrt ((List.zipWith (fun a b => (a - b) ^ 2) predict labels).sum) /
          Real.sqrt (sumSqDev labels)) ∧
      rrse (labels.map fun _ => meanList labels) labels = 1 ∧
      rrse labels labels = 0 := by
  refine ⟨fun predict => rfl, ?_, ?_⟩
  · rw [rrse, zipWith_const_left]
    have hmm : (labels.map fun y => (meanList labels - y) ^ 2).sum =
        sumSqDev labels := by
      rw [sumSqDev]
      apply congrArg
      apply List.map_congr_left
      intro x _
      ring
    have hpos : 0 < sumSqDev labels :=
      lt_of_le_of_ne (sumSqDev_nonneg labels) (Ne.symm (sumSqDev_ne_zero h))
    rw [hmm, div_self (Real.sqrt_ne_zero'.2 hpos)]
  · rw [rrse, zipWith_self_map]
    have hz : (labels.map fun a => (a - a) ^ 2).sum = 0 :=
      List.sum_eq_zero fun x hx => by
        obtain ⟨y, hy, rfl⟩ := List.mem_map.1 hx
        ring
    rw [hz, Real.sqrt_zero, zero_div]

/-- Witness for C7 at the nonconstant label vector `[0, 1]`. -/
theorem c7_rrse_witness :
    (∃ a ∈ ([0, 1] : List ℝ), ∃ b ∈ ([0, 1] : List ℝ), a ≠ b) ∧
      ((∀ predict, rrse predict [0, 1] =
          Real.sqrt
              ((List.zipWith (fun a b => (a - b) ^ 2) predict [0, 1]).sum) /
            Real.sqrt (sumSqDev [0, 1])) ∧
        rrse (([0, 1] : List ℝ).map fun _ => meanList [0, 1]) [0, 1] = 1 ∧
        rrse ([0, 1] : List ℝ) [0, 1] = 0) :=
  ⟨⟨0, by simp, 1, by simp, by norm_num⟩,
    c7_rrse [0, 1] ⟨0, by simp, 1, by simp, by norm_num⟩⟩

/-- C2 counterexample: flatten a 2-output-channel label tensor (2 samples
× 1 time step × 2 channels, sample-major) to `[0, 1, 1, 0]`: channel 0
holds `[0, 1]` and channel 1 holds `[1, 0]`, both nonconstant.  With the
accumulated predictions exactly equal to the labels, the correlation the
code returns — computed on the *flattened 1-D* tensors of lines 229-230,
not per channel — is `1`, not `2`, the number of output channels. -/
theorem c2_counterexample :
    corr ([0, 1, 1, 0] : List ℝ) [0, 1, 1, 0] = 1 ∧ (1 : ℝ) ≠ 2 := by
  refine ⟨corr_self_eq_one ?_, by norm_num⟩
  have hm : meanList [0, 1, 1, 0] = 1 / 2 := by
    norm_num [meanList]
  norm_num [sumSqDev, hm]

/-- C2 (amended): after the reshape to 1-D (lines 229-230) the channels
are flattened together, so the correlation statistic is the *single*
Pearson correlation between the flattened centered predictions and
flattened centered labels; for every accumulated prediction exactly equal
to the (nonconstant) label tensor the returned correlation equals `1`
(which equals the number of output channels only when `output_size = 1`). -/
theorem c2_corr_single_pearson (labels : List ℝ)
    (h : ∃ a ∈ labels, ∃ b ∈ labels, a ≠ b) :
    corr labels labels = 1 :=
  corr_self_eq_one (sumSqDev_ne_zero h)

/-- Witness for the amended C2 at the nonconstant flat vector `[0, 1]`. -/
theorem c2_corr_single_pearson_witness :
    (∃ a ∈ ([0, 1] : List ℝ), ∃ b ∈ ([0, 1] : List ℝ), a ≠ b) ∧
      corr ([0, 1] : List ℝ) [0, 1] = 1 :=
  ⟨⟨0, by simp, 1, by simp, by norm_num⟩,
    c2_corr_single_pearson [0, 1] ⟨0, by simp, 1, by simp, by norm_num⟩⟩

/-- C10: the divisions in `evaluate` are unguarded; the RRSE denominator
`sqrt(sum((labels-mean)^2))` is zero exactly when all accumulated labels
are equal, and the correlation denominator
`sqrt(sum(y_d^2) * sum(y_d_hat^2))` is zero exactly when the accumulated
labels are constant or the accumulated predictions are constant — so under
nonconstancy of both, the zero-denominator branches are unreachable. -/
theorem c10_unguarded_denominators (predict labels : List ℝ) :
    (Real.sqrt (sumSqDev labels) = 0 ↔ ∀ a ∈ labels, ∀ b ∈ labels, a = b) ∧
      (corrDenom predict labels = 0 ↔
        ((∀ a ∈ labels, ∀ b ∈ labels, a = b) ∨
          (∀ a ∈ predict, ∀ b ∈ predict, a = b))) := by
  constructor
  · rw [Real.sqrt_eq_zero', ← sumSqDev_eq_zero_iff]
    constructor
    · intro hle
      exact le_antisymm hle (sumSqDev_nonneg labels)
    · intro he
      rw [he]
  · rw [corrDenom, map_sq_center_sum, map_sq_center_sum, Real.sqrt_eq_zero']
    constructor
    · intro hle
      have hprod : sumSqDev labels * sumSqDev predict = 0 :=
        le_antisymm hle (mul_nonneg (sumSqDev_nonneg _) (sumSqDev_nonneg _))
      rcases mul_eq_zero.1 hprod with h1 | h2
      · exact Or.inl ((sumSqDev_eq_zero_iff _).1 h1)
      · exact Or.inr ((sumSqDev_eq_zero_iff _).1 h2)
    · intro hor
      rcases hor with h1 | h2
      · rw [(sumSqDev_eq_zero_iff _).2 h1, zero_mul]
      · rw [(sumSqDev_eq_zero_iff _).2 h2, mul_zero]

/-! ### Claim C3 -/

lemma evaluateLossLoop_eq_sum (batches : List (List ℝ × List ℝ))
    (accP accL : List ℝ) :
    evaluateLossLoop accP accL batches =
      ∑ i ∈ Finset.range batches.length,
        mseList (accP ++ ((batches.map Prod.fst).take (i + 1)).flatten)
          (accL ++ ((batches.map Prod.snd).take (i + 1)).flatten) := by
  induction batches generalizing accP accL with
  | nil => simp [evaluateLossLoop]
  | cons pl rest ih =>
      obtain ⟨p, l⟩ := pl
      simp only [evaluateLossLoop, List.length_cons, List.map_cons]
      rw [ih, Finset.sum_range_succ']
      rw [add_comm]
      congr 1
      · apply Finset.sum_congr rfl
        intro i _
        simp [List.take_succ_cons, List.append_assoc]
      · simp

/-- C3: the MSE scalar returned by `evaluate` equals the sum over batch
indices `i = 1..B` of the mean squared error of the concatenation of the
first `i` batches' predictions against the first `i` batches' labels,
divided by `B * batch_size`: each iteration recomputes the criterion on
the whole running concatenation, so earlier samples contribute to several
terms. -/
theorem c3_running_concatenation_mse (batch_size : ℕ)
    (batches : List (List ℝ × List ℝ)) :
    evaluateMse batch_size batches =
      (∑ i ∈ Finset.range batches.length,
          mseList ((batches.map Prod.fst).take (i + 1)).flatten
            ((batches.map Prod.snd).take (i + 1)).flatten) /
        (batches.length * batch_size) := by
  rw [evaluateMse, evaluateLossLoop_eq_sum]
  simp

/-! ### Claim C8 -/

/-- The checkpoint decisions of the epoch loop in `main` (lines 285-298):
`best_val` starts at `float("inf")` (modelled by `⊤ : WithTop ℚ`); each
epoch the model is written to the (fixed) path `params.save` iff this
epoch's validation MSE is strictly below `best_val`, and `best_val` is
then lowered to that MSE.  Returns the per-epoch "was saved" flags. -/
def checkpointSaves : List ℚ → WithTop ℚ → List Bool
  | [], _ => []
  | mse :: rest, best_val =>
      if (mse : WithTop ℚ) < best_val then
        true :: checkpointSaves rest (mse : WithTop ℚ)
      else
        false :: checkpointSaves rest best_val

lemma checkpointSaves_length (mses : List ℚ) (best : WithTop ℚ) :
    (checkpointSaves mses best).length = mses.length := by
  induction mses generalizing best with
  | nil => rfl
  | cons m rest ih =>
      by_cases h : (m : WithTop ℚ) < best <;>
        simp [checkpointSaves, h, ih]

/-- Spec-side description of the guard: the flag is `true` iff the MSE is
strictly below every earlier epoch's MSE. -/
def strictlyBelowAll (x : ℚ) (earlier : List ℚ) : Bool :=
  earlier.all fun y => decide (x < y)

/-- Spec-side save flags: position `i` gets
`strictlyBelowAll mse_i [mse_0, …, mse_(i-1)]`. -/
def specSaveFlags (earlier : List ℚ) : List ℚ → List Bool
  | [] => []
  | m :: rest => strictlyBelowAll m earlier :: specSaveFlags (earlier ++ [m]) rest

lemma checkpointSaves_eq_specSaveFlags (mses : List ℚ) (best : WithTop ℚ)
    (earlier : List ℚ)
    (hb : ∀ x : ℚ, ((x : WithTop ℚ) < best ↔ ∀ y ∈ earlier, x < y)) :
    checkpointSaves mses best = specSaveFlags earlier mses := by
  induction mses generalizing best earlier with
  | nil => rfl
  | cons m rest ih =>
      show (if (m : WithTop ℚ) < best then
          true :: checkpointSaves rest (m : WithTop ℚ)
        else false :: checkpointSaves rest best) =
        strictlyBelowAll m earlier :: specSaveFlags (earlier ++ [m]) rest
      by_cases h : (m : WithTop ℚ) < best
      · rw [if_pos h]
        have hhead : strictlyBelowAll m earlier = true := by
          rw [strictlyBelowAll, List.all_eq_true]
          intro y hy
          exact decide_eq_true ((hb m).1 h y hy)
        rw [hhead]
        congr 1
        apply ih
        intro x
        rw [WithTop.coe_lt_coe]
        constructor
        · intro hx y hy
          rcases List.mem_append.1 hy with hy1 | hy2
          · exact lt_trans hx ((hb m).1 h y hy1)
          · rw [List.mem_singleton.1 hy2]
            exact hx
        · intro hall
          exact hall m (by simp)
      · rw [if_neg h]
        have hhead : strictlyBelowAll m earlier = false := by
          rw [Bool.eq_false_iff]
          intro hc
          rw [strictlyBelowAll, List.all_eq_true] at hc
          exact h ((hb m).2 fun y hy => of_decide_eq_true (hc y hy))
        rw [hhead]
        congr 1
        apply ih
        intro x
        have hbm : best ≤ (m : WithTop ℚ) := not_lt.1 h
        constructor
        · intro hx y hy
          rcases List.mem_append.1 hy with hy1 | hy2
          · exact (hb x).1 hx y hy1
          · rw [List.mem_singleton.1 hy2]
            exact_mod_cast lt_of_lt_of_le hx hbm
        · intro hall
          exact (hb x).2 fun y hy => hall y (List.mem_append_left _ hy)

lemma specSaveFlags_length (earlier mses : List ℚ) :
    (specSaveFlags earlier mses).length = mses.length := by
  induction mses generalizing earlier with
  | nil => rfl
  | cons m rest ih => simp [specSaveFlags, ih]

lemma specSaveFlags_get (mses : List ℚ) (earlier : List ℚ) (i : ℕ)
    (hi : i < mses.length) (hlen : i < (specSaveFlags earlier mses).length) :
    (specSaveFlags earlier mses).get ⟨i, hlen⟩ =
      strictlyBelowAll (mses.get ⟨i, hi⟩) (earlier ++ mses.take i) := by
  induction mses generalizing earlier i with
  | nil => exact absurd hi (by simp)
  | cons m rest ih =>
      cases i with
      | zero =>
          show strictlyBelowAll m earlier = strictlyBelowAll m (earlier ++ [])
          rw [List.append_nil]
      | succ k =>
          have hk : k < rest.length := Nat.lt_of_succ_lt_succ hi
          have hklen : k < (specSaveFlags (earlier ++ [m]) rest).length := by
            rw [specSaveFlags_length]
            exact hk
          show (specSaveFlags (earlier ++ [m]) rest).get ⟨k, hklen⟩ =
            strictlyBelowAll (rest.get ⟨k, hk⟩) (earlier ++ m :: rest.take k)
          rw [ih (earlier ++ [m]) k hk hklen]
          congr 1
          rw [List.append_assoc, List.singleton_append]

/-- C8: in the epoch loop of `main`, the checkpoint is written in epoch
`i` iff epoch `i`'s validation MSE is strictly less than every earlier
epoch's validation MSE (`best_val` starts at `float("inf")`, modelled as
`⊤`, so the first epoch always writes). -/
theorem c8_checkpoint_guard (mses : List ℚ) (i : ℕ) (hi : i < mses.length) :
    ((checkpointSaves mses ⊤).get
        ⟨i, by rw [checkpointSaves_length]; exact hi⟩ = true ↔
      ∀ j (hj : j < i), mses.get ⟨i, hi⟩ < mses.get ⟨j, hj.trans hi⟩) := by
  have heq : checkpointSaves mses ⊤ = specSaveFlags [] mses :=
    checkpointSaves_eq_specSaveFlags mses ⊤ []
      (fun x => by simp [WithTop.coe_lt_top])
  have hlen : i < (specSaveFlags [] mses).length := by
    rw [specSaveFlags_length]
    exact hi
  rw [List.get_of_eq heq, specSaveFlags_get mses [] i hi]
  rw [List.nil_append, strictlyBelowAll, List.all_eq_true]
  constructor
  · intro hall j hj
    have hjt : j < (mses.take i).length := by
      rw [List.length_take]
      exact lt_min hj (hj.trans hi)
    have hmem : mses.get ⟨j, hj.trans hi⟩ ∈ mses.take i := by
      have hmm := List.get_mem (mses.take i) j hjt
      have hgt : (mses.take i).get ⟨j, hjt⟩ = mses.get ⟨j, hj.trans hi⟩ := by
        simp only [List.get_eq_getElem]
        exact (List.getElem_take' mses (hj.trans hi) hj).symm
      rwa [hgt] at hmm
    exact of_decide_eq_true (hall _ hmem)
  · intro hforall y hy
    obtain ⟨⟨j, hjt⟩, rfl⟩ := List.mem_iff_get.1 hy
    have hji : j < i := lt_of_lt_of_le hjt
      (by rw [List.length_take]; exact min_le_left i mses.length)
    apply decide_eq_true
    have hgt : (mses.take i).get ⟨j, hjt⟩ = mses.get ⟨j, hji.trans hi⟩ := by
      simp only [List.get_eq_getElem]
      exact (List.getElem_take' mses (hji.trans hi) hji).symm
    rw [hgt]
    exact hforall j hji

/-- Witness for C8: with validation MSEs `[3, 2, 5]`, epoch 1 (MSE 2)
writes a checkpoint because `2 < 3`. -/
theorem c8_checkpoint_guard_witness :
    1 < ([3, 2, 5] : List ℚ).length ∧
      ((checkpointSaves [3, 2, 5] ⊤).get
          ⟨1, by rw [checkpointSaves_length]; norm_num⟩ = true ↔
        ∀ j (hj : j < 1),
          ([3, 2, 5] : List ℚ).get ⟨1, by norm_num⟩ <
            ([3, 2, 5] : List ℚ).get ⟨j, hj.trans (by norm_num)⟩) :=
  ⟨by norm_num, c8_checkpoint_guard [3, 2, 5] 1 (by norm_num)⟩

/-! ### Concrete sample instances used by the witnesses -/

/-- A concrete 1→1 linear map (weight 2, bias 3). -/
noncomputable def sampleLinear : Linear 1 1 :=
  ⟨fun _ _ => 2, fun _ => 3⟩

/-- A concrete model with all dimensions 1 and empty layer stacks. -/
noncomputable def sampleModel : Model 1 1 1 1 1 1 :=
  ⟨sampleLinear, sampleLinear, sampleLinear, sampleLinear, [], []⟩

/-- A concrete all-zeros mask bundle. -/
noncomputable def sampleMasks : DropMasks 1 1 1 1 :=
  ⟨fun _ _ _ => 0, fun _ _ _ => 0, fun _ _ _ _ => 0, fun _ _ _ _ => 0⟩

/-- A concrete all-ones mask bundle, different from `sampleMasks`. -/
noncomputable def sampleMasks1 : DropMasks 1 1 1 1 :=
  ⟨fun _ _ _ => 1, fun _ _ _ => 1, fun _ _ _ _ => 1, fun _ _ _ _ => 1⟩

/-- A concrete 1×1×1 input. -/
noncomputable def sampleSrc : T3 1 1 1 := fun _ _ _ => 5

/-- Witness for C5 at the concrete `sampleModel` and `sampleSrc`. -/
theorem c5_forward_decomposition_witness :
    Model.forward sampleModel false sampleMasks sampleSrc = fun b l o =>
      sampleModel.linear_out.app3
          (Decoder.forward sampleModel.decoder false sampleMasks.decFfn
            (PositionalEncoding.forward 1 false sampleMasks.peDec
              (sampleModel.dec_input_embed.app3 (rollShifts001 sampleSrc)))
            (Encoder.forward sampleModel.encoder false sampleMasks.encFfn
              (PositionalEncoding.forward 1 false sampleMasks.peEnc
                (sampleModel.enc_input_embed.app3 sampleSrc)))) b l o
        + AR.forward sampleModel.ar sampleSrc b l o :=
  c5_forward_decomposition sampleModel false sampleMasks sampleSrc

/-- Witness for C9 at the concrete `sampleModel`, two different mask
bundles. -/
theorem c9_eval_deterministic_witness :
    Model.forward sampleModel false sampleMasks sampleSrc =
      Model.forward sampleModel false sampleMasks1 sampleSrc :=
  c9_eval_deterministic sampleModel sampleMasks sampleMasks1 sampleSrc

end MTAttention
